import Mathlib

/-!
Verification of the bundle-walking core of `osx-sign` (`src/util.ts`):
the tree flattener `compactFlattenedList` and the recursive directory
walker `walk` / `_walkAsync`, together with the filesystem model they
run against.

Modelling conventions:
* A filesystem path is modelled as its list of name components
  (`FPath := List String`).  `path.resolve(dirPath, child)` appends one
  component (`readdir` names never contain a separator), so the component
  list determines the string path, and "string `x` extends string `b ++ "/"`"
  is exactly "the component list of `b` is a proper prefix of that of `x`".
* The filesystem seen by one `walk` call is modelled as a tree of nodes
  (`FSNode` / `FSDir`).  `fs.promises.stat` follows symbolic links, so a
  symlink node carries what its *target* looks like; a dangling symlink
  makes `stat` fail.  Fallible filesystem operations return `Except Err`.
* The deletion performed for `.cstemp` files is modelled by returning,
  next to each result, the state of the tree after the call
  (`none` = the entry was removed).
-/

/-- A filesystem path, as its list of name components. -/
abbrev FPath := List String

/-- Node's `path.extname` applied to a single name component (the basename):
the suffix starting at the last `.`, or `""` when there is no `.` or the
only `.` is the leading character of a dotfile (so `extnameOfName ".cstemp" = ""`). -/
def extnameOfName (s : String) : String :=
  let cs := s.toList
  let tailLen := (cs.reverse.takeWhile (fun c => c != '.')).length
  if tailLen + 1 < cs.length then String.mk (cs.drop (cs.length - tailLen - 1))
  else ""

/-- Node's `path.extname` on a resolved path: the extension of its basename. -/
def extname (p : FPath) : String :=
  extnameOfName (p.getLastD "")

/-- Bool test: `b` is a prefix of `x` (as component lists). -/
def under : FPath → FPath → Bool
  | [], _ => true
  | _ :: _, [] => false
  | a :: as, b :: bs => a == b && under as bs

/-- Bool test: `b` is a proper prefix of `x`: the string path `x` lies
strictly inside the directory `b`. -/
def properUnder (b x : FPath) : Bool :=
  under b x && b.length < x.length

/-- The walker pushes paths with extension `.app` or `.framework`. -/
def bundleExtP (p : FPath) : Bool :=
  extname p == ".app" || extname p == ".framework"

mutual
/-- The source's `DeepListItem<T> = null | T | DeepListItem<T>[]`. -/
inductive DeepItem (α : Type) where
  | null : DeepItem α
  | item (a : α) : DeepItem α
  | list (l : DeepList α) : DeepItem α
deriving DecidableEq

/-- The source's `DeepList<T> = DeepListItem<T>[]`. -/
inductive DeepList (α : Type) where
  | nil : DeepList α
  | cons (hd : DeepItem α) (tl : DeepList α) : DeepList α
deriving DecidableEq
end

/-- JavaScript `walkResult.push(x)`: append one element at the end. -/
def DeepList.push {α : Type} : DeepList α → DeepItem α → DeepList α
  | .nil, x => .cons x .nil
  | .cons h t, x => .cons h (t.push x)

mutual
/-- The source's inner `populateResult`, for items of type `α` whose
JavaScript truthiness is `t` (for `T = string`, `t s = (s != "")`).
`if (!Array.isArray(list)) { if (list) result.push(list); }` is the
`null`/`item` cases; the `list.length > 0` guard before the loop is
redundant (an empty loop appends nothing) and is kept implicit. -/
def populate {α : Type} (t : α → Bool) : DeepItem α → List α
  | .null => []
  | .item a => if t a then [a] else []
  | .list l => populateList t l

/-- The loop `for (const item of list) if (item) populateResult(item)`:
`null` and falsy items are skipped, arrays are always truthy and recursed. -/
def populateList {α : Type} (t : α → Bool) : DeepList α → List α
  | .nil => []
  | .cons h tl =>
      (match h with
       | .null => []
       | .item a => if t a then populate t (.item a) else []
       | .list l => populate t (.list l)) ++ populateList t tl
end

/-- The source's `compactFlattenedList`: run `populateResult` on the
top-level array and return the accumulated result. -/
def compactFlattenedList {α : Type} (t : α → Bool) (l : DeepList α) : List α :=
  populate t (.list l)

/-- JavaScript truthiness of a `string`: every string except `""`. -/
def strTruthy (s : String) : Bool := s != ""

/-- JavaScript truthiness of a resolved path string: `path.resolve` always
returns a non-empty absolute string, so a resolved path is truthy exactly
when its component list is non-empty. -/
def pathTruthy (p : FPath) : Bool := !p.isEmpty

mutual
/-- One filesystem entry, as seen by the walker.  `fs.promises.stat` follows
symbolic links, so symlink entries are recorded with what the *target* looks
like; `stat` of a dangling symlink fails.  Entries whose access fails get
their own constructors so that error propagation can be stated. -/
inductive FSNode where
  /-- A regular file; `binary` is the verdict of `isBinaryFile` on its bytes. -/
  | file (name : String) (binary : Bool) : FSNode
  /-- A regular file whose bytes cannot be read: `isBinaryFile` throws. -/
  | unreadableFile (name : String) : FSNode
  /-- A regular file that cannot be deleted: `fs.promises.rm` throws. -/
  | undeletableFile (name : String) (binary : Bool) : FSNode
  /-- A directory with the given entries. -/
  | dir (name : String) (children : FSDir) : FSNode
  /-- A directory whose entries cannot be listed: `readdir` throws. -/
  | unreadableDir (name : String) : FSNode
  /-- A symbolic link whose target is a regular file with the given bytes. -/
  | linkToFile (name : String) (binary : Bool) : FSNode
  /-- A symbolic link whose target is a directory with the given entries. -/
  | linkToDir (name : String) (children : FSDir) : FSNode
  /-- A dangling symbolic link: `fs.promises.stat` (which follows links) throws. -/
  | brokenLink (name : String) : FSNode
  /-- Any other entry kind (socket, FIFO, ...): `stat` succeeds but reports
  neither a file nor a directory. -/
  | other (name : String) : FSNode
deriving DecidableEq

/-- The ordered entry list of one directory, as returned by `readdir`. -/
inductive FSDir where
  | nil : FSDir
  | cons (child : FSNode) (rest : FSDir) : FSDir
deriving DecidableEq
end

/-- The name component of an entry (what `readdir` returns for it). -/
def nameOf : FSNode → String
  | .file n _ => n
  | .unreadableFile n => n
  | .undeletableFile n _ => n
  | .dir n _ => n
  | .unreadableDir n => n
  | .linkToFile n _ => n
  | .linkToDir n _ => n
  | .brokenLink n => n
  | .other n => n

/-- The entries of a directory as a `List`. -/
def FSDir.toList : FSDir → List FSNode
  | .nil => []
  | .cons c r => c :: r.toList

/-- Number of entries of a directory. -/
def FSDir.lengthD : FSDir → Nat
  | .nil => 0
  | .cons _ r => r.lengthD + 1

/-- Errors raised by the filesystem primitives the walker uses. -/
inductive Err where
  /-- `fs.promises.stat` failed at this path. -/
  | statErr (p : FPath) : Err
  /-- `fs.promises.readdir` failed at this path. -/
  | readdirErr (p : FPath) : Err
  /-- `fs.promises.rm` failed at this path. -/
  | rmErr (p : FPath) : Err
  /-- `isBinaryFile` failed to read this path. -/
  | readErr (p : FPath) : Err
deriving DecidableEq

/-- The source's `getFilePathIfBinary`: await the `isBinaryFile` verdict
(`sniff`, which may throw) and return the path when it is binary, `null`
otherwise. -/
def getFilePathIfBinary (filePath : FPath) (sniff : Except Err Bool) :
    Except Err (Option FPath) := do
  if (← sniff) then return (some filePath) else return none

mutual
/-- The body of the callback `children.map(async (child) => ...)` of
`_walkAsync`, run on one directory entry.  Returns the entry's contribution
to the result tree together with the entry's state after the call (`none`
when the entry was deleted).

The `stat`-based classification of the source is realised per constructor:
`fs.promises.stat` follows symbolic links, so `stat.isFile()` holds for
regular files *and* symlinks to files, `stat.isDirectory()` holds for
directories *and* symlinks to directories, and `stat.isSymbolicLink()` is
always `false` on a followed `stat` (making the source's
`!stat.isSymbolicLink()` conjunct vacuous); `stat` of a dangling link
throws, and the recursive `_walkAsync(filePath)` of the directory branch —
`readdir` plus the per-child map — is inlined here. -/
def walkChild (dirPath : FPath) : FSNode → Except Err (DeepItem FPath × Option FSNode)
  -- stat.isFile(): regular files
  | .file name binary =>
      let filePath := dirPath ++ [name]
      if extname filePath == ".cstemp" then
        -- fs.promises.rm(filePath, { recursive: true, force: true }); return null
        .ok (.null, none)
      else do
        let r ← getFilePathIfBinary filePath (.ok binary)
        .ok (match r with | some p => .item p | none => .null, some (.file name binary))
  | .unreadableFile name =>
      let filePath := dirPath ++ [name]
      if extname filePath == ".cstemp" then
        .ok (.null, none)
      else do
        let r ← getFilePathIfBinary filePath (.error (.readErr filePath))
        .ok (match r with | some p => .item p | none => .null, some (.unreadableFile name))
  | .undeletableFile name binary =>
      let filePath := dirPath ++ [name]
      if extname filePath == ".cstemp" then
        -- the forced rm still fails (e.g. EPERM), and the error propagates
        .error (.rmErr filePath)
      else do
        let r ← getFilePathIfBinary filePath (.ok binary)
        .ok (match r with | some p => .item p | none => .null, some (.undeletableFile name binary))
  -- stat.isFile() also holds for a symlink to a file, since stat follows it
  | .linkToFile name binary =>
      let filePath := dirPath ++ [name]
      if extname filePath == ".cstemp" then
        .ok (.null, none)
      else do
        let r ← getFilePathIfBinary filePath (.ok binary)
        .ok (match r with | some p => .item p | none => .null, some (.linkToFile name binary))
  -- stat.isDirectory() && !stat.isSymbolicLink(): recurse, then push the
  -- directory's own path when its extension is `.app` or `.framework`
  | .dir name children =>
      let filePath := dirPath ++ [name]
      (do
        let (walkResult, children2) ← walkChildren filePath children
        let pushed :=
          if extname filePath == ".app" || extname filePath == ".framework" then
            walkResult.push (.item filePath)
          else walkResult
        .ok (.list pushed, some (.dir name children2)))
  -- stat.isDirectory() also holds for a symlink to a directory (stat follows
  -- it, and stat.isSymbolicLink() is false), so the link target is recursed
  | .linkToDir name children =>
      let filePath := dirPath ++ [name]
      (do
        let (walkResult, children2) ← walkChildren filePath children
        let pushed :=
          if extname filePath == ".app" || extname filePath == ".framework" then
            walkResult.push (.item filePath)
          else walkResult
        .ok (.list pushed, some (.linkToDir name children2)))
  | .unreadableDir name =>
      -- stat reports a directory; the recursive readdir then throws
      let filePath := dirPath ++ [name]
      .error (.readdirErr filePath)
  | .brokenLink name =>
      -- stat follows the dangling link and throws
      let filePath := dirPath ++ [name]
      .error (.statErr filePath)
  | .other name =>
      -- neither stat.isFile() nor stat.isDirectory(): `return null`
      .ok (.null, some (.other name))

/-- The per-directory part of `_walkAsync`: map the callback over the
children returned by `readdir` and collect the results in listing order
(`Promise.all` keeps the slot order of the mapped array and rejects as soon
as any child rejects).  Also returns the directory's entry list after the
deletions performed by the walk. -/
def walkChildren (dirPath : FPath) : FSDir → Except Err (DeepList FPath × FSDir)
  | .nil => .ok (.nil, .nil)
  | .cons c rest => do
      let (r, c2) ← walkChild dirPath c
      let (rs, rest2) ← walkChildren dirPath rest
      .ok (.cons r rs, match c2 with | some n => .cons n rest2 | none => rest2)
end

/-- The source's `_walkAsync(dirPath)`, run against the entity `node` living
at `dirPath`: `readdir` the path (which fails with `ENOTDIR` when the stat
target is not a directory, and fails for an unlistable directory or a
dangling link) and process all children. -/
def _walkAsync (dirPath : FPath) (node : FSNode) : Except Err (DeepList FPath × FSDir) :=
  match node with
  | .dir _ children => walkChildren dirPath children
  | .linkToDir _ children => walkChildren dirPath children
  | _ => .error (.readdirErr dirPath)

/-- The source's `walk(dirPath)`: run `_walkAsync` on the root and flatten
the nested result with `compactFlattenedList`.  Next to the path list the
model also returns the children of the root after the walk's deletions. -/
def walk (dirPath : FPath) (node : FSNode) : Except Err (List FPath × FSDir) := do
  let (allPaths, node2) ← _walkAsync dirPath node
  .ok (compactFlattenedList pathTruthy allPaths, node2)

mutual
/-- The flat list of paths one entry contributes to a *successful* walk of
its parent: a non-`.cstemp` file contributes its path when binary; a
directory (or, `stat` following links, a symlink to one) contributes its
descendants followed by its own path when its extension is `.app` or
`.framework`.  On entries that make the walk fail the value is irrelevant
(the characterization lemma only applies to `.ok` runs). -/
def expectedN (dirPath : FPath) : FSNode → List FPath
  | .file name binary =>
      let filePath := dirPath ++ [name]
      if extname filePath == ".cstemp" then []
      else if binary then [filePath] else []
  | .undeletableFile name binary =>
      let filePath := dirPath ++ [name]
      if extname filePath == ".cstemp" then []
      else if binary then [filePath] else []
  | .linkToFile name binary =>
      let filePath := dirPath ++ [name]
      if extname filePath == ".cstemp" then []
      else if binary then [filePath] else []
  | .dir name children =>
      let filePath := dirPath ++ [name]
      expectedD filePath children ++ (if bundleExtP filePath then [filePath] else [])
  | .linkToDir name children =>
      let filePath := dirPath ++ [name]
      expectedD filePath children ++ (if bundleExtP filePath then [filePath] else [])
  | _ => []

/-- Concatenation of the per-entry contributions, in listing order. -/
def expectedD (dirPath : FPath) : FSDir → List FPath
  | .nil => []
  | .cons c rest => expectedN dirPath c ++ expectedD dirPath rest
end

/-- Pairwise distinctness of a list of names. -/
def distinctNames : List String → Bool
  | [] => true
  | n :: ns => !(ns.any (fun m => m == n)) && distinctNames ns

/-- Names of the entries of a directory, in listing order. -/
def namesOfD (d : FSDir) : List String :=
  d.toList.map nameOf

mutual
/-- Well-formedness of one entry: its (real or link-target) entry lists have
pairwise distinct names — real directory listings never repeat a name — and
well-formed entries. -/
def wfNode : FSNode → Bool
  | .dir _ children => distinctNames (namesOfD children) && wfAll children
  | .linkToDir _ children => distinctNames (namesOfD children) && wfAll children
  | _ => true

/-- Every entry of the list is well-formed. -/
def wfAll : FSDir → Bool
  | .nil => true
  | .cons c rest => wfNode c && wfAll rest
end

/-- Well-formedness of a directory: sibling names are pairwise distinct and
every entry is well-formed. -/
def wfDir (d : FSDir) : Bool :=
  distinctNames (namesOfD d) && wfAll d

theorem wfNode_dir (n : String) (cs : FSDir) : wfNode (.dir n cs) = wfDir cs := rfl

theorem wfNode_linkToDir (n : String) (cs : FSDir) :
    wfNode (.linkToDir n cs) = wfDir cs := rfl

mutual
/-- Whether processing this entry (necessarily) makes the walk fail: a
dangling link (`stat` throws), an unlistable directory (`readdir` throws,
and every directory is recursed into), an unreadable file that is not
reclaimed as `.cstemp` (`isBinaryFile` throws), an undeletable `.cstemp`
file (`rm` throws), or a directory containing such an entry. -/
def anyBadN (dirPath : FPath) : FSNode → Bool
  | .brokenLink _ => true
  | .unreadableDir _ => true
  | .unreadableFile name => extname (dirPath ++ [name]) != ".cstemp"
  | .undeletableFile name _ => extname (dirPath ++ [name]) == ".cstemp"
  | .dir name children => anyBadD (dirPath ++ [name]) children
  | .linkToDir name children => anyBadD (dirPath ++ [name]) children
  | _ => false

/-- Whether some entry of the directory makes the walk fail. -/
def anyBadD (dirPath : FPath) : FSDir → Bool
  | .nil => false
  | .cons c rest => anyBadN dirPath c || anyBadD dirPath rest
end

mutual
/-- Whether the tree contains, anywhere, a regular file whose name has the
stale-artifact extension `.cstemp`. -/
def hasCstempN : FSNode → Bool
  | .file name _ => extnameOfName name == ".cstemp"
  | .unreadableFile name => extnameOfName name == ".cstemp"
  | .undeletableFile name _ => extnameOfName name == ".cstemp"
  | .dir _ children => hasCstempD children
  | .linkToDir _ children => hasCstempD children
  | _ => false

/-- Whether some entry of the directory contains such a file. -/
def hasCstempD : FSDir → Bool
  | .nil => false
  | .cons c rest => hasCstempN c || hasCstempD rest
end

/-- Membership of an entry in a directory listing. -/
def memD (n : FSNode) (d : FSDir) : Prop :=
  n ∈ d.toList

/-- `DirAt d rel d2`: starting from the entry list `d`, following the chain
of directory names `rel` (through real directories or, as `stat` follows
links, symlinked ones) reaches an entry list `d2`. -/
inductive DirAt : FSDir → List String → FSDir → Prop where
  | refl (d : FSDir) : DirAt d [] d
  | stepDir {d : FSDir} {name : String} {inner d2 : FSDir} {rel : List String}
      (hmem : memD (.dir name inner) d) (h : DirAt inner rel d2) :
      DirAt d (name :: rel) d2
  | stepLink {d : FSDir} {name : String} {inner d2 : FSDir} {rel : List String}
      (hmem : memD (.linkToDir name inner) d) (h : DirAt inner rel d2) :
      DirAt d (name :: rel) d2

mutual
/-- Spec-side flattener, following the specification's words: "produce an
ordered sequence of all non-null leaf items, in depth-first left-to-right
order, with nesting removed" — only `null` leaves are dropped. -/
def specLeaves {α : Type} : DeepItem α → List α
  | .null => []
  | .item a => [a]
  | .list l => specLeavesList l

/-- Spec-side flattener on a sequence. -/
def specLeavesList {α : Type} : DeepList α → List α
  | .nil => []
  | .cons h tl => specLeaves h ++ specLeavesList tl
end

mutual
/-- Whether a tree of items contains an empty-string leaf (a JS-falsy,
non-null item). -/
def hasEmptyLeaf : DeepItem String → Bool
  | .null => false
  | .item a => a == ""
  | .list l => hasEmptyLeafList l

/-- Whether a sequence contains an empty-string leaf. -/
def hasEmptyLeafList : DeepList String → Bool
  | .nil => false
  | .cons h tl => hasEmptyLeaf h || hasEmptyLeafList tl
end

/-- Whether an input sequence is already flat: no nested sequences. -/
def isFlat {α : Type} : DeepList α → Bool
  | .nil => true
  | .cons h tl => (match h with | .list _ => false | _ => true) && isFlat tl

/-- The non-null elements of a flat sequence, in order (the spec's
"identity on non-null elements"). -/
def nonNullOf {α : Type} : DeepList α → List α
  | .nil => []
  | .cons h tl => (match h with | .item a => [a] | _ => []) ++ nonNullOf tl

theorem pathTruthy_resolve (p : FPath) (n : String) : pathTruthy (p ++ [n]) = true := by
  cases p <;> simp [pathTruthy]

theorem extname_resolve (p : FPath) (n : String) :
    extname (p ++ [n]) = extnameOfName n := by
  unfold extname
  simp [List.getLastD_concat]

theorem under_append (p q : FPath) : under p (p ++ q) = true := by
  induction p with
  | nil => simp [under]
  | cons a as ih => simp [under, ih]

theorem under_length {a b : FPath} (h : under a b = true) : a.length ≤ b.length := by
  induction a generalizing b with
  | nil => simp
  | cons x xs ih =>
    cases b with
    | nil => simp [under] at h
    | cons y ys =>
      simp only [under, Bool.and_eq_true] at h
      simpa using ih h.2

theorem under_iff {a b : FPath} : under a b = true ↔ ∃ t, a ++ t = b := by
  constructor
  · intro h
    induction a generalizing b with
    | nil => exact ⟨b, rfl⟩
    | cons x xs ih =>
      cases b with
      | nil => simp [under] at h
      | cons y ys =>
        simp only [under, Bool.and_eq_true, beq_iff_eq] at h
        obtain ⟨t, ht⟩ := ih h.2
        exact ⟨t, by simp [h.1, ht]⟩
  · rintro ⟨t, rfl⟩
    exact under_append a t

theorem under_trans {a b c : FPath} (h1 : under a b = true) (h2 : under b c = true) :
    under a c = true := by
  rw [under_iff] at h1 h2 ⊢
  obtain ⟨t1, rfl⟩ := h1
  obtain ⟨t2, rfl⟩ := h2
  exact ⟨t1 ++ t2, by simp⟩

theorem under_snoc_inj {p : FPath} {a b : String} {x : FPath}
    (ha : under (p ++ [a]) x = true) (hb : under (p ++ [b]) x = true) : a = b := by
  induction p generalizing x with
  | nil =>
    cases x with
    | nil => simp [under] at ha
    | cons y ys =>
      simp only [List.nil_append, under, Bool.and_eq_true, beq_iff_eq] at ha hb
      rw [ha.1, hb.1]
  | cons c cs ih =>
    cases x with
    | nil => simp [under] at ha
    | cons y ys =>
      simp only [List.cons_append, under, Bool.and_eq_true] at ha hb
      exact ih ha.2 hb.2

theorem under_of_snoc {p : FPath} {a : String} {x : FPath}
    (h : under (p ++ [a]) x = true) : under p x = true := by
  rw [under_iff] at h ⊢
  obtain ⟨t, rfl⟩ := h
  exact ⟨a :: t, by simp⟩

theorem populateList_cons {α : Type} (t : α → Bool) (h : DeepItem α) (tl : DeepList α) :
    populateList t (.cons h tl) = populate t h ++ populateList t tl := by
  cases h <;> simp [populateList, populate]

theorem populateList_push {α : Type} (t : α → Bool) (l : DeepList α) (x : DeepItem α) :
    populateList t (l.push x) = populateList t l ++ populate t x := by
  cases l with
  | nil =>
    show populateList t (.cons x .nil) = populateList t .nil ++ populate t x
    rw [populateList_cons]
    simp [populateList]
  | cons h tl =>
    show populateList t (.cons h (tl.push x)) = populateList t (.cons h tl) ++ populate t x
    rw [populateList_cons, populateList_cons, populateList_push t tl x, List.append_assoc]

theorem compactFlattenedList_eq {α : Type} (t : α → Bool) (l : DeepList α) :
    compactFlattenedList t l = populateList t l := rfl

theorem getFilePathIfBinary_ok (fp : FPath) (b : Bool) :
    getFilePathIfBinary fp (.ok b) = .ok (if b then some fp else none) := by
  cases b <;> rfl

theorem getFilePathIfBinary_err (fp : FPath) (e : Err) :
    getFilePathIfBinary fp (.error e) = .error e := rfl

theorem walkChild_file_cstemp {p : FPath} {name : String} (binary : Bool)
    (h : (extname (p ++ [name]) == ".cstemp") = true) :
    walkChild p (.file name binary) = .ok (.null, none) := by
  simp [walkChild, h]

theorem walkChild_file {p : FPath} {name : String} (binary : Bool)
    (h : (extname (p ++ [name]) == ".cstemp") = false) :
    walkChild p (.file name binary) =
      .ok (if binary then .item (p ++ [name]) else .null, some (.file name binary)) := by
  cases binary <;> simp [walkChild, h, getFilePathIfBinary, bind, Except.bind, pure, Except.pure]

theorem walkChild_unreadable_cstemp {p : FPath} {name : String}
    (h : (extname (p ++ [name]) == ".cstemp") = true) :
    walkChild p (.unreadableFile name) = .ok (.null, none) := by
  simp [walkChild, h]

theorem walkChild_unreadable {p : FPath} {name : String}
    (h : (extname (p ++ [name]) == ".cstemp") = false) :
    walkChild p (.unreadableFile name) = .error (.readErr (p ++ [name])) := by
  simp [walkChild, h, getFilePathIfBinary, bind, Except.bind, pure, Except.pure]

theorem walkChild_undeletable_cstemp {p : FPath} {name : String} (binary : Bool)
    (h : (extname (p ++ [name]) == ".cstemp") = true) :
    walkChild p (.undeletableFile name binary) = .error (.rmErr (p ++ [name])) := by
  simp [walkChild, h]

theorem walkChild_undeletable {p : FPath} {name : String} (binary : Bool)
    (h : (extname (p ++ [name]) == ".cstemp") = false) :
    walkChild p (.undeletableFile name binary) =
      .ok (if binary then .item (p ++ [name]) else .null,
           some (.undeletableFile name binary)) := by
  cases binary <;> simp [walkChild, h, getFilePathIfBinary, bind, Except.bind, pure, Except.pure]

theorem walkChild_linkToFile_cstemp {p : FPath} {name : String} (binary : Bool)
    (h : (extname (p ++ [name]) == ".cstemp") = true) :
    walkChild p (.linkToFile name binary) = .ok (.null, none) := by
  simp [walkChild, h]

theorem walkChild_linkToFile {p : FPath} {name : String} (binary : Bool)
    (h : (extname (p ++ [name]) == ".cstemp") = false) :
    walkChild p (.linkToFile name binary) =
      .ok (if binary then .item (p ++ [name]) else .null,
           some (.linkToFile name binary)) := by
  cases binary <;> simp [walkChild, h, getFilePathIfBinary, bind, Except.bind, pure, Except.pure]

theorem walkChild_dir_ok {p : FPath} {name : String} {children : FSDir}
    {rs : DeepList FPath} {cs2 : FSDir}
    (h : walkChildren (p ++ [name]) children = .ok (rs, cs2)) :
    walkChild p (.dir name children) =
      .ok (.list (if bundleExtP (p ++ [name]) then rs.push (.item (p ++ [name])) else rs),
           some (.dir name cs2)) := by
  simp [walkChild, h, bundleExtP, bind, Except.bind]

theorem walkChild_dir_err {p : FPath} {name : String} {children : FSDir} {e : Err}
    (h : walkChildren (p ++ [name]) children = .error e) :
    walkChild p (.dir name children) = .error e := by
  simp [walkChild, h, bind, Except.bind]

theorem walkChild_linkToDir_ok {p : FPath} {name : String} {children : FSDir}
    {rs : DeepList FPath} {cs2 : FSDir}
    (h : walkChildren (p ++ [name]) children = .ok (rs, cs2)) :
    walkChild p (.linkToDir name children) =
      .ok (.list (if bundleExtP (p ++ [name]) then rs.push (.item (p ++ [name])) else rs),
           some (.linkToDir name cs2)) := by
  simp [walkChild, h, bundleExtP, bind, Except.bind]

theorem walkChild_linkToDir_err {p : FPath} {name : String} {children : FSDir} {e : Err}
    (h : walkChildren (p ++ [name]) children = .error e) :
    walkChild p (.linkToDir name children) = .error e := by
  simp [walkChild, h, bind, Except.bind]

theorem walkChild_other {p : FPath} {name : String} :
    walkChild p (.other name) = .ok (.null, some (.other name)) := rfl

theorem walkChild_unreadableDir {p : FPath} {name : String} :
    walkChild p (.unreadableDir name) = .error (.readdirErr (p ++ [name])) := rfl

theorem walkChild_brokenLink {p : FPath} {name : String} :
    walkChild p (.brokenLink name) = .error (.statErr (p ++ [name])) := rfl

theorem walkChildren_nil {p : FPath} : walkChildren p .nil = .ok (.nil, .nil) := rfl

theorem walkChildren_cons_ok {p : FPath} {c : FSNode} {rest : FSDir}
    {r : DeepItem FPath} {c2 : Option FSNode} {rs : DeepList FPath} {rest2 : FSDir}
    (hc : walkChild p c = .ok (r, c2)) (hr : walkChildren p rest = .ok (rs, rest2)) :
    walkChildren p (.cons c rest) =
      .ok (.cons r rs, match c2 with | some n => .cons n rest2 | none => rest2) := by
  cases c2 <;> simp [walkChildren, hc, hr, bind, Except.bind]

theorem walkChildren_cons_err1 {p : FPath} {c : FSNode} {rest : FSDir} {e : Err}
    (hc : walkChild p c = .error e) :
    walkChildren p (.cons c rest) = .error e := by
  simp [walkChildren, hc, bind, Except.bind]

theorem walkChildren_cons_err2 {p : FPath} {c : FSNode} {rest : FSDir}
    {r : DeepItem FPath} {c2 : Option FSNode} {e : Err}
    (hc : walkChild p c = .ok (r, c2)) (hr : walkChildren p rest = .error e) :
    walkChildren p (.cons c rest) = .error e := by
  simp [walkChildren, hc, hr, bind, Except.bind]

mutual
theorem walkChild_populate (p : FPath) (n : FSNode) (r : DeepItem FPath)
    (n2 : Option FSNode) (h : walkChild p n = .ok (r, n2)) :
    populate pathTruthy r = expectedN p n := by
  cases n with
  | file name binary =>
    by_cases hext : (extname (p ++ [name]) == ".cstemp") = true
    · rw [walkChild_file_cstemp binary hext] at h
      simp at h
      simp [← h.1, populate, expectedN, hext]
    · simp only [Bool.not_eq_true] at hext
      rw [walkChild_file binary hext] at h
      simp at h
      cases binary with
      | true => simp [← h.1, populate, expectedN, hext, pathTruthy_resolve]
      | false => simp [← h.1, populate, expectedN, hext]
  | unreadableFile name =>
    by_cases hext : (extname (p ++ [name]) == ".cstemp") = true
    · rw [walkChild_unreadable_cstemp hext] at h
      simp at h
      simp [← h.1, populate, expectedN, hext]
    · simp only [Bool.not_eq_true] at hext
      rw [walkChild_unreadable hext] at h
      simp at h
  | undeletableFile name binary =>
    by_cases hext : (extname (p ++ [name]) == ".cstemp") = true
    · rw [walkChild_undeletable_cstemp binary hext] at h
      simp at h
    · simp only [Bool.not_eq_true] at hext
      rw [walkChild_undeletable binary hext] at h
      simp at h
      cases binary with
      | true => simp [← h.1, populate, expectedN, hext, pathTruthy_resolve]
      | false => simp [← h.1, populate, expectedN, hext]
  | linkToFile name binary =>
    by_cases hext : (extname (p ++ [name]) == ".cstemp") = true
    · rw [walkChild_linkToFile_cstemp binary hext] at h
      simp at h
      simp [← h.1, populate, expectedN, hext]
    · simp only [Bool.not_eq_true] at hext
      rw [walkChild_linkToFile binary hext] at h
      simp at h
      cases binary with
      | true => simp [← h.1, populate, expectedN, hext, pathTruthy_resolve]
      | false => simp [← h.1, populate, expectedN, hext]
  | dir name children =>
    cases hw : walkChildren (p ++ [name]) children with
    | error e => rw [walkChild_dir_err hw] at h; simp at h
    | ok v =>
      obtain ⟨rs, cs2⟩ := v
      rw [walkChild_dir_ok hw] at h
      simp at h
      have hrec := walkChildren_populate (p ++ [name]) children rs cs2 hw
      by_cases hb : bundleExtP (p ++ [name]) = true
      · simp only [hb, if_true] at h
        simp [← h.1, populate, expectedN, bundleExtP, hb, populateList_push, hrec,
          pathTruthy_resolve]
        simp only [bundleExtP, Bool.or_eq_true, beq_iff_eq] at hb
        rcases hb with h1 | h1 <;> simp [h1]
      · simp only [hb, if_false, Bool.not_eq_true] at h
        rw [Bool.not_eq_true] at hb
        simp [← h.1, populate, expectedN, hrec, hb]
  | linkToDir name children =>
    cases hw : walkChildren (p ++ [name]) children with
    | error e => rw [walkChild_linkToDir_err hw] at h; simp at h
    | ok v =>
      obtain ⟨rs, cs2⟩ := v
      rw [walkChild_linkToDir_ok hw] at h
      simp at h
      have hrec := walkChildren_populate (p ++ [name]) children rs cs2 hw
      by_cases hb : bundleExtP (p ++ [name]) = true
      · simp only [hb, if_true] at h
        simp [← h.1, populate, expectedN, bundleExtP, hb, populateList_push, hrec,
          pathTruthy_resolve]
        simp only [bundleExtP, Bool.or_eq_true, beq_iff_eq] at hb
        rcases hb with h1 | h1 <;> simp [h1]
      · simp only [hb, if_false, Bool.not_eq_true] at h
        rw [Bool.not_eq_true] at hb
        simp [← h.1, populate, expectedN, hrec, hb]
  | unreadableDir name => rw [walkChild_unreadableDir] at h; simp at h
  | brokenLink name => rw [walkChild_brokenLink] at h; simp at h
  | other name =>
    rw [walkChild_other] at h
    simp at h
    simp [← h.1, populate, expectedN]

theorem walkChildren_populate (p : FPath) (d : FSDir) (rs : DeepList FPath)
    (d2 : FSDir) (h : walkChildren p d = .ok (rs, d2)) :
    populateList pathTruthy rs = expectedD p d := by
  cases d with
  | nil =>
    rw [walkChildren_nil] at h
    simp at h
    simp [← h.1, populateList, expectedD]
  | cons c rest =>
    cases hc : walkChild p c with
    | error e => rw [walkChildren_cons_err1 hc] at h; simp at h
    | ok v =>
      obtain ⟨r, c2⟩ := v
      cases hr : walkChildren p rest with
      | error e => rw [walkChildren_cons_err2 hc hr] at h; simp at h
      | ok w =>
        obtain ⟨rs2, rest2⟩ := w
        rw [walkChildren_cons_ok hc hr] at h
        simp at h
        have h1 := walkChild_populate p c r c2 hc
        have h2 := walkChildren_populate p rest rs2 rest2 hr
        simp [← h.1, populateList_cons, h1, h2, expectedD]
end

theorem under_refl (p : FPath) : under p p = true := by
  have h := under_append p []
  simpa using h

theorem mem_expectedD (p : FPath) (d : FSDir) (x : FPath) :
    x ∈ expectedD p d ↔ ∃ n, memD n d ∧ x ∈ expectedN p n := by
  cases d with
  | nil => simp [expectedD, memD, FSDir.toList]
  | cons c rest =>
    simp only [expectedD, List.mem_append, mem_expectedD p rest x, memD, FSDir.toList,
      List.mem_cons]
    constructor
    · rintro (hx | ⟨n, hn, hx⟩)
      · exact ⟨c, Or.inl rfl, hx⟩
      · exact ⟨n, Or.inr hn, hx⟩
    · rintro ⟨n, (rfl | hn), hx⟩
      · exact Or.inl hx
      · exact Or.inr ⟨n, hn, hx⟩

mutual
theorem expectedN_under (p : FPath) (n : FSNode) (x : FPath) (hx : x ∈ expectedN p n) :
    under (p ++ [nameOf n]) x = true := by
  cases n with
  | file name binary =>
    simp only [expectedN] at hx
    split_ifs at hx <;> simp_all [nameOf, under_refl]
  | unreadableFile name => simp [expectedN] at hx
  | undeletableFile name binary =>
    simp only [expectedN] at hx
    split_ifs at hx <;> simp_all [nameOf, under_refl]
  | linkToFile name binary =>
    simp only [expectedN] at hx
    split_ifs at hx <;> simp_all [nameOf, under_refl]
  | dir name children =>
    simp only [expectedN, List.mem_append] at hx
    rcases hx with hx | hx
    · exact expectedD_under (p ++ [name]) children x hx
    · split_ifs at hx <;> simp_all [nameOf, under_refl]
  | linkToDir name children =>
    simp only [expectedN, List.mem_append] at hx
    rcases hx with hx | hx
    · exact expectedD_under (p ++ [name]) children x hx
    · split_ifs at hx <;> simp_all [nameOf, under_refl]
  | unreadableDir name => simp [expectedN] at hx
  | brokenLink name => simp [expectedN] at hx
  | other name => simp [expectedN] at hx

theorem expectedD_under (p : FPath) (d : FSDir) (x : FPath) (hx : x ∈ expectedD p d) :
    under p x = true := by
  cases d with
  | nil => simp [expectedD] at hx
  | cons c rest =>
    simp only [expectedD, List.mem_append] at hx
    rcases hx with hx | hx
    · exact under_of_snoc (expectedN_under p c x hx)
    · exact expectedD_under p rest x hx
end

/-- The ordering invariant of the flattened output: whenever a path with a
bundle extension occurs, no path strictly inside it occurs later. -/
def goodOrder (l : List FPath) : Prop :=
  ∀ pre b suf, l = pre ++ b :: suf → bundleExtP b = true →
    ∀ x ∈ suf, properUnder b x = false

theorem goodOrder_nil : goodOrder [] := by
  intro pre b suf h
  cases pre <;> simp at h

theorem goodOrder_singleton (a : FPath) : goodOrder [a] := by
  intro pre b suf h hb x hx
  cases pre with
  | nil =>
    rw [List.nil_append] at h
    injection h with h1 h2
    rw [← h2] at hx
    exact absurd hx (List.not_mem_nil x)
  | cons c cs =>
    rw [List.cons_append] at h
    injection h with h1 h2
    exact absurd h2.symm (List.append_ne_nil_of_right_ne_nil cs (by simp))

theorem goodOrder_append {A B : List FPath} (hA : goodOrder A) (hB : goodOrder B)
    (hcross : ∀ b ∈ A, ∀ x ∈ B, bundleExtP b = true → properUnder b x = false) :
    goodOrder (A ++ B) := by
  intro pre b suf heq hb x hx
  rcases List.append_eq_append_iff.mp heq.symm with ⟨w, hw1, hw2⟩ | ⟨w, hw1, hw2⟩
  · -- A = pre ++ w and b :: suf = w ++ B: the occurrence of b is in A or at B's head
    cases w with
    | nil =>
      simp only [List.nil_append] at hw2
      exact hB [] b suf (by simp [← hw2]) hb x hx
    | cons c w2 =>
      simp only [List.cons_append, List.cons.injEq] at hw2
      obtain ⟨rfl, hsuf⟩ := hw2
      rw [hsuf] at hx
      rcases List.mem_append.mp hx with hx2 | hx2
      · exact hA pre b w2 hw1 hb x hx2
      · exact hcross b (by rw [hw1]; simp) x hx2 hb
  · -- pre = A ++ w and B = w ++ b :: suf: the occurrence of b lies in B
    exact hB w b suf hw2 hb x hx

theorem properUnder_none_of_sibling {p : FPath} {nc nm : String} {b x : FPath}
    (hb : under (p ++ [nc]) b = true) (hx : under (p ++ [nm]) x = true)
    (hne : nc ≠ nm) : properUnder b x = false := by
  cases hpu : properUnder b x with
  | false => rfl
  | true =>
    simp only [properUnder, Bool.and_eq_true, decide_eq_true_eq] at hpu
    exact absurd (under_snoc_inj (under_trans hb hpu.1) hx) hne

theorem properUnder_none_of_longer {b x : FPath} (h : x.length ≤ b.length) :
    properUnder b x = false := by
  cases hpu : properUnder b x with
  | false => rfl
  | true =>
    simp only [properUnder, Bool.and_eq_true, decide_eq_true_eq] at hpu
    omega

theorem wfDir_cons {c : FSNode} {rest : FSDir} (h : wfDir (.cons c rest) = true) :
    wfNode c = true ∧ wfDir rest = true ∧ ∀ m ∈ rest.toList, nameOf m ≠ nameOf c := by
  simp only [wfDir, namesOfD, FSDir.toList, List.map_cons, distinctNames, wfAll,
    Bool.and_eq_true, Bool.not_eq_true', List.any_eq_false, beq_iff_eq] at h
  obtain ⟨⟨hnone, hdist⟩, hc, hall⟩ := h
  refine ⟨hc, ?_, ?_⟩
  · simp [wfDir, namesOfD, hdist, hall]
  · intro m hm heq
    exact hnone (nameOf m) (List.mem_map_of_mem nameOf hm) heq

mutual
theorem expectedN_goodOrder (p : FPath) (n : FSNode) (hwf : wfNode n = true) :
    goodOrder (expectedN p n) := by
  cases n with
  | file name binary =>
    simp only [expectedN]
    split_ifs <;> first | exact goodOrder_nil | exact goodOrder_singleton _
  | unreadableFile name => simp only [expectedN]; exact goodOrder_nil
  | undeletableFile name binary =>
    simp only [expectedN]
    split_ifs <;> first | exact goodOrder_nil | exact goodOrder_singleton _
  | linkToFile name binary =>
    simp only [expectedN]
    split_ifs <;> first | exact goodOrder_nil | exact goodOrder_singleton _
  | dir name children =>
    simp only [expectedN]
    rw [wfNode_dir] at hwf
    apply goodOrder_append (expectedD_goodOrder (p ++ [name]) children hwf)
    · split_ifs <;> first | exact goodOrder_nil | exact goodOrder_singleton _
    · intro b hbmem x hxmem hbext
      obtain ⟨m, hm, hbm⟩ := (mem_expectedD _ _ _).mp hbmem
      have hlen := under_length (expectedN_under (p ++ [name]) m b hbm)
      split_ifs at hxmem with hbun
      · simp only [List.mem_singleton] at hxmem
        rw [hxmem]
        apply properUnder_none_of_longer
        simp only [List.length_append, List.length_cons, List.length_nil] at hlen ⊢
        omega
      · simp at hxmem
  | linkToDir name children =>
    simp only [expectedN]
    rw [wfNode_linkToDir] at hwf
    apply goodOrder_append (expectedD_goodOrder (p ++ [name]) children hwf)
    · split_ifs <;> first | exact goodOrder_nil | exact goodOrder_singleton _
    · intro b hbmem x hxmem hbext
      obtain ⟨m, hm, hbm⟩ := (mem_expectedD _ _ _).mp hbmem
      have hlen := under_length (expectedN_under (p ++ [name]) m b hbm)
      split_ifs at hxmem with hbun
      · simp only [List.mem_singleton] at hxmem
        rw [hxmem]
        apply properUnder_none_of_longer
        simp only [List.length_append, List.length_cons, List.length_nil] at hlen ⊢
        omega
      · simp at hxmem
  | unreadableDir name => simp only [expectedN]; exact goodOrder_nil
  | brokenLink name => simp only [expectedN]; exact goodOrder_nil
  | other name => simp only [expectedN]; exact goodOrder_nil

theorem expectedD_goodOrder (p : FPath) (d : FSDir) (hwf : wfDir d = true) :
    goodOrder (expectedD p d) := by
  cases d with
  | nil => simp only [expectedD]; exact goodOrder_nil
  | cons c rest =>
    obtain ⟨hc, hrest, hnames⟩ := wfDir_cons hwf
    simp only [expectedD]
    apply goodOrder_append (expectedN_goodOrder p c hc) (expectedD_goodOrder p rest hrest)
    intro b hbmem x hxmem hbext
    obtain ⟨m, hm, hxm⟩ := (mem_expectedD _ _ _).mp hxmem
    exact properUnder_none_of_sibling (expectedN_under p c b hbmem)
      (expectedN_under p m x hxm) (fun he => hnames m hm he.symm)
end

theorem walk_dir_ok {p : FPath} {rname : String} {ns : FSDir} {out : List FPath}
    {post : FSDir} (h : walk p (.dir rname ns) = .ok (out, post)) :
    ∃ rs, walkChildren p ns = .ok (rs, post) ∧ out = populateList pathTruthy rs := by
  simp only [walk, _walkAsync, bind, Except.bind] at h
  cases hw : walkChildren p ns with
  | error e => rw [hw] at h; simp [bind, Except.bind] at h
  | ok v =>
    obtain ⟨rs, d2⟩ := v
    rw [hw] at h
    simp only [bind, Except.bind, Except.ok.injEq, Prod.mk.injEq] at h
    obtain ⟨h1, h2⟩ := h
    exact ⟨rs, by rw [h2], by rw [← h1, compactFlattenedList_eq]⟩

theorem walk_dir_of {p : FPath} (rname : String) {ns : FSDir} {rs : DeepList FPath}
    {d2 : FSDir} (h : walkChildren p ns = .ok (rs, d2)) :
    walk p (.dir rname ns) = .ok (populateList pathTruthy rs, d2) := by
  simp only [walk, _walkAsync, bind, Except.bind, h, compactFlattenedList_eq]

/-- C1: for every bundle directory `B` (extension `.app` or `.framework`)
reached during a successful walk of a well-formed tree (readdir listings
never repeat a name), every path of the flattened output that lies in `B`'s
subtree appears strictly before `B`'s own path: wherever a path with a
bundle extension occurs in the output, no path strictly inside it occurs at
a later position. -/
theorem walk_bundle_contents_first (p : FPath) (rname : String) (ns : FSDir)
    (out : List FPath) (post : FSDir)
    (hwf : wfDir ns = true) (hok : walk p (.dir rname ns) = .ok (out, post)) :
    ∀ pre b suf, out = pre ++ b :: suf → bundleExtP b = true →
      ∀ x ∈ suf, properUnder b x = false := by
  obtain ⟨rs, hw, hout⟩ := walk_dir_ok hok
  rw [hout, walkChildren_populate p ns rs post hw]
  exact expectedD_goodOrder p ns hwf

/-- Witness for C1 on the concrete tree `r/{A.app/{b}, c}`: the walk output
is `[r/A.app/b, r/A.app, c]`, splitting it around the bundle path `r/A.app`
leaves the suffix `[r/c]`, and no element of that suffix is inside the
bundle. -/
theorem walk_bundle_contents_first_witness :
    properUnder ["r", "A.app"] ["r", "c"] = false :=
  walk_bundle_contents_first ["r"] "r"
    (.cons (.dir "A.app" (.cons (.file "b" true) .nil)) (.cons (.file "c" true) .nil))
    [["r", "A.app", "b"], ["r", "A.app"], ["r", "c"]]
    (.cons (.dir "A.app" (.cons (.file "b" true) .nil)) (.cons (.file "c" true) .nil))
    (by decide) (by rfl)
    [["r", "A.app", "b"]] ["r", "A.app"] [["r", "c"]] rfl (by decide)
    ["r", "c"] (by decide)

/-- C2: the claim that every symbolic link contributes `null` — never
appearing in the output, never recursed into — fails on the code.
`_walkAsync` stats each entry with `fs.promises.stat`, which follows
symbolic links, so `stat.isSymbolicLink()` is always `false` on the result
and the `!stat.isSymbolicLink()` guard is dead.  On the concrete tree
`r/{d → directory {b : binary file}, f → binary file}` (where `d` and `f`
are symlinks) the walk recurses through the link `d` and reports both
`r/d/b` and the link `r/f` itself. -/
theorem walk_follows_symlinks :
    walk ["r"] (.dir "r" (.cons (.linkToDir "d" (.cons (.file "b" true) .nil))
      (.cons (.linkToFile "f" true) .nil))) =
    .ok ([["r", "d", "b"], ["r", "f"]],
      .cons (.linkToDir "d" (.cons (.file "b" true) .nil))
        (.cons (.linkToFile "f" true) .nil)) := rfl

/-- C3 counterexample: on the input `[""]`, whose only leaf is the non-null
item `""`, `compactFlattenedList` does not return the sequence of non-null
leaves (which is `[""]`): JavaScript truthiness drops empty-string leaves
as well. -/
theorem compactFlattenedList_empty_leaf_dropped :
    compactFlattenedList strTruthy (.cons (.item "") .nil) ≠
      specLeavesList (.cons (.item "") .nil) ∧
    compactFlattenedList strTruthy (.cons (.item "") .nil) = [] ∧
    specLeavesList (.cons (.item "") .nil) = [""] := by decide

mutual
theorem populate_eq_specLeaves (x : DeepItem String) (h : hasEmptyLeaf x = false) :
    populate strTruthy x = specLeaves x := by
  cases x with
  | null => rfl
  | item a =>
    simp only [hasEmptyLeaf] at h
    have ha : a ≠ "" := by simpa using h
    simp [populate, specLeaves, strTruthy, ha]
  | list l =>
    simp only [hasEmptyLeaf] at h
    exact populateList_eq_specLeaves l h

theorem populateList_eq_specLeaves (l : DeepList String)
    (h : hasEmptyLeafList l = false) :
    populateList strTruthy l = specLeavesList l := by
  cases l with
  | nil => rfl
  | cons x tl =>
    simp only [hasEmptyLeafList, Bool.or_eq_false_iff] at h
    rw [populateList_cons, populate_eq_specLeaves x h.1,
      populateList_eq_specLeaves tl h.2, specLeavesList]
end

/-- C3 (amended): for every nested input whose leaves are `null` or non-empty
strings, `compactFlattenedList` returns exactly the non-null leaf items in
depth-first left-to-right order with all nesting removed (so the empty input
yields the empty output, and duplicates are preserved); the amendment is
that JS-falsy leaves — empty strings — are dropped along with `null`s. -/
theorem compactFlattenedList_nonNull_leaves (l : DeepList String)
    (h : hasEmptyLeafList l = false) :
    compactFlattenedList strTruthy l = specLeavesList l := by
  rw [compactFlattenedList_eq]
  exact populateList_eq_specLeaves l h

/-- Witness for C3 on a nested input with a `null`, nesting and a duplicate
leaf. -/
theorem compactFlattenedList_nonNull_leaves_witness :
    compactFlattenedList strTruthy
      (.cons (.item "a") (.cons .null
        (.cons (.list (.cons (.item "b") (.cons (.item "a") .nil))) .nil))) =
    specLeavesList
      (.cons (.item "a") (.cons .null
        (.cons (.list (.cons (.item "b") (.cons (.item "a") .nil))) .nil))) :=
  compactFlattenedList_nonNull_leaves _ (by decide)

/-- C7 counterexample: on the already-flat input `["a", ""]`,
`compactFlattenedList` is not the identity on the non-null elements
(`["a", ""]`): the empty-string element is dropped. -/
theorem compactFlattenedList_flat_empty_dropped :
    compactFlattenedList strTruthy (.cons (.item "a") (.cons (.item "") .nil)) ≠
      nonNullOf (.cons (.item "a") (.cons (.item "") .nil)) ∧
    compactFlattenedList strTruthy (.cons (.item "a") (.cons (.item "") .nil)) = ["a"] ∧
    nonNullOf (.cons (.item "a") (.cons (.item "") .nil)) = ["a", ""] := by decide

/-- C7 (amended): on an already-flat input sequence none of whose elements is
the empty string, `compactFlattenedList` returns exactly its non-null
elements in order; the amendment is that JS-falsy (empty-string) elements
are dropped along with `null`s. -/
theorem populateList_flat (l : DeepList String) (hflat : isFlat l = true)
    (h : hasEmptyLeafList l = false) : populateList strTruthy l = nonNullOf l := by
  cases l with
  | nil => rfl
  | cons x tl =>
    simp only [isFlat, Bool.and_eq_true] at hflat
    simp only [hasEmptyLeafList, Bool.or_eq_false_iff] at h
    have ih := populateList_flat tl hflat.2 h.2
    cases x with
    | null => simp [populateList_cons, nonNullOf, populate, ih]
    | item a =>
      have ha : a ≠ "" := by simpa [hasEmptyLeaf] using h.1
      simp [populateList_cons, nonNullOf, populate, strTruthy, ha, ih]
    | list m => exact Bool.noConfusion hflat.1

/-- C7 (amended): on an already-flat input sequence none of whose elements is
the empty string, `compactFlattenedList` returns exactly its non-null
elements in order; the amendment is that JS-falsy (empty-string) elements
are dropped along with `null`s. -/
theorem compactFlattenedList_flat_identity (l : DeepList String)
    (hflat : isFlat l = true) (h : hasEmptyLeafList l = false) :
    compactFlattenedList strTruthy l = nonNullOf l := by
  rw [compactFlattenedList_eq]
  exact populateList_flat l hflat h

/-- Witness for C7 on the flat input `["x", null, "y"]`. -/
theorem compactFlattenedList_flat_identity_witness :
    compactFlattenedList strTruthy
      (.cons (.item "x") (.cons .null (.cons (.item "y") .nil))) =
    nonNullOf (.cons (.item "x") (.cons .null (.cons (.item "y") .nil))) :=
  compactFlattenedList_flat_identity _ (by decide) (by decide)

/-- Whether an `Except` computation succeeded. -/
def isOkE {α : Type} : Except Err α → Bool
  | .ok _ => true
  | .error _ => false

theorem walk_dir_err {p : FPath} (rname : String) {ns : FSDir} {e : Err}
    (h : walkChildren p ns = .error e) : walk p (.dir rname ns) = .error e := by
  simp only [walk, _walkAsync, bind, Except.bind, h]

mutual
theorem walkChild_isOk (p : FPath) (n : FSNode) :
    isOkE (walkChild p n) = !anyBadN p n := by
  cases n with
  | file name binary =>
    by_cases hext : (extname (p ++ [name]) == ".cstemp") = true
    · rw [walkChild_file_cstemp binary hext]; simp [isOkE, anyBadN]
    · simp only [Bool.not_eq_true] at hext
      rw [walkChild_file binary hext]; simp [isOkE, anyBadN]
  | unreadableFile name =>
    by_cases hext : (extname (p ++ [name]) == ".cstemp") = true
    · have he : extname (p ++ [name]) = ".cstemp" := by simpa using hext
      rw [walkChild_unreadable_cstemp hext]; simp [isOkE, anyBadN, he]
    · simp only [Bool.not_eq_true] at hext
      have he : ¬ extname (p ++ [name]) = ".cstemp" := by simpa using hext
      rw [walkChild_unreadable hext]; simp [isOkE, anyBadN, he]
  | undeletableFile name binary =>
    by_cases hext : (extname (p ++ [name]) == ".cstemp") = true
    · have he : extname (p ++ [name]) = ".cstemp" := by simpa using hext
      rw [walkChild_undeletable_cstemp binary hext]; simp [isOkE, anyBadN, he]
    · simp only [Bool.not_eq_true] at hext
      have he : ¬ extname (p ++ [name]) = ".cstemp" := by simpa using hext
      rw [walkChild_undeletable binary hext]; simp [isOkE, anyBadN, he]
  | linkToFile name binary =>
    by_cases hext : (extname (p ++ [name]) == ".cstemp") = true
    · rw [walkChild_linkToFile_cstemp binary hext]; simp [isOkE, anyBadN]
    · simp only [Bool.not_eq_true] at hext
      rw [walkChild_linkToFile binary hext]; simp [isOkE, anyBadN]
  | dir name children =>
    have hrec := walkChildren_isOk (p ++ [name]) children
    cases hw : walkChildren (p ++ [name]) children with
    | error e =>
      rw [walkChild_dir_err hw]
      rw [hw] at hrec
      simp only [isOkE] at hrec ⊢
      simp [anyBadN, ← hrec]
    | ok v =>
      obtain ⟨rs, cs2⟩ := v
      rw [walkChild_dir_ok hw]
      rw [hw] at hrec
      simp only [isOkE] at hrec ⊢
      simp [anyBadN, ← hrec]
  | linkToDir name children =>
    have hrec := walkChildren_isOk (p ++ [name]) children
    cases hw : walkChildren (p ++ [name]) children with
    | error e =>
      rw [walkChild_linkToDir_err hw]
      rw [hw] at hrec
      simp only [isOkE] at hrec ⊢
      simp [anyBadN, ← hrec]
    | ok v =>
      obtain ⟨rs, cs2⟩ := v
      rw [walkChild_linkToDir_ok hw]
      rw [hw] at hrec
      simp only [isOkE] at hrec ⊢
      simp [anyBadN, ← hrec]
  | unreadableDir name => rw [walkChild_unreadableDir]; simp [isOkE, anyBadN]
  | brokenLink name => rw [walkChild_brokenLink]; simp [isOkE, anyBadN]
  | other name => rw [walkChild_other]; simp [isOkE, anyBadN]

theorem walkChildren_isOk (p : FPath) (d : FSDir) :
    isOkE (walkChildren p d) = !anyBadD p d := by
  cases d with
  | nil => rw [walkChildren_nil]; simp [isOkE, anyBadD]
  | cons c rest =>
    have hc := walkChild_isOk p c
    have hr := walkChildren_isOk p rest
    cases hcw : walkChild p c with
    | error e =>
      rw [walkChildren_cons_err1 hcw]
      rw [hcw] at hc
      simp only [isOkE] at hc ⊢
      simp [anyBadD, ← hc]
    | ok v =>
      obtain ⟨r, c2⟩ := v
      rw [hcw] at hc
      simp only [isOkE] at hc
      cases hrw : walkChildren p rest with
      | error e =>
        rw [walkChildren_cons_err2 hcw hrw]
        rw [hrw] at hr
        simp only [isOkE] at hr ⊢
        simp [anyBadD, ← hc, ← hr]
      | ok w =>
        obtain ⟨rs, rest2⟩ := w
        rw [walkChildren_cons_ok hcw hrw]
        rw [hrw] at hr
        simp only [isOkE] at hr ⊢
        simp [anyBadD, ← hc, ← hr]
end

/-- C4: a `walk` call succeeds exactly when no reachable entry makes a
filesystem primitive fail: any failing `readdir` listing, failing `stat`
(dangling symlink), failing deletion of a `.cstemp` artifact, or failing
content read during binary sniffing (which is surfaced, never treated as
"not binary") at any depth makes the whole call fail, and — the result
being a single `Except` value — a failed walk carries no partial output. -/
theorem walk_fails_iff_bad (p : FPath) (rname : String) (ns : FSDir) :
    isOkE (walk p (.dir rname ns)) = !anyBadD p ns := by
  have h := walkChildren_isOk p ns
  cases hw : walkChildren p ns with
  | error e =>
    rw [walk_dir_err rname hw]
    rw [hw] at h
    exact h
  | ok v =>
    obtain ⟨rs, d2⟩ := v
    rw [walk_dir_of rname hw]
    rw [hw] at h
    exact h

mutual
theorem walkChild_no_cstemp (p : FPath) (n : FSNode) (r : DeepItem FPath)
    (n2 : FSNode) (h : walkChild p n = .ok (r, some n2)) : hasCstempN n2 = false := by
  cases n with
  | file name binary =>
    by_cases hext : (extname (p ++ [name]) == ".cstemp") = true
    · rw [walkChild_file_cstemp binary hext] at h; simp at h
    · simp only [Bool.not_eq_true] at hext
      rw [walkChild_file binary hext] at h
      simp at h
      rw [← h.2, hasCstempN, ← extname_resolve p name, hext]
  | unreadableFile name =>
    by_cases hext : (extname (p ++ [name]) == ".cstemp") = true
    · rw [walkChild_unreadable_cstemp hext] at h; simp at h
    · simp only [Bool.not_eq_true] at hext
      rw [walkChild_unreadable hext] at h; simp at h
  | undeletableFile name binary =>
    by_cases hext : (extname (p ++ [name]) == ".cstemp") = true
    · rw [walkChild_undeletable_cstemp binary hext] at h; simp at h
    · simp only [Bool.not_eq_true] at hext
      rw [walkChild_undeletable binary hext] at h
      simp at h
      rw [← h.2, hasCstempN, ← extname_resolve p name, hext]
  | linkToFile name binary =>
    by_cases hext : (extname (p ++ [name]) == ".cstemp") = true
    · rw [walkChild_linkToFile_cstemp binary hext] at h; simp at h
    · simp only [Bool.not_eq_true] at hext
      rw [walkChild_linkToFile binary hext] at h
      simp at h
      rw [← h.2]
      rfl
  | dir name children =>
    cases hw : walkChildren (p ++ [name]) children with
    | error e => rw [walkChild_dir_err hw] at h; simp at h
    | ok v =>
      obtain ⟨rs, cs2⟩ := v
      rw [walkChild_dir_ok hw] at h
      simp at h
      rw [← h.2, hasCstempN]
      exact walkChildren_no_cstemp (p ++ [name]) children rs cs2 hw
  | linkToDir name children =>
    cases hw : walkChildren (p ++ [name]) children with
    | error e => rw [walkChild_linkToDir_err hw] at h; simp at h
    | ok v =>
      obtain ⟨rs, cs2⟩ := v
      rw [walkChild_linkToDir_ok hw] at h
      simp at h
      rw [← h.2, hasCstempN]
      exact walkChildren_no_cstemp (p ++ [name]) children rs cs2 hw
  | unreadableDir name => rw [walkChild_unreadableDir] at h; simp at h
  | brokenLink name => rw [walkChild_brokenLink] at h; simp at h
  | other name =>
    rw [walkChild_other] at h
    simp at h
    rw [← h.2]
    rfl

theorem walkChildren_no_cstemp (p : FPath) (d : FSDir) (rs : DeepList FPath)
    (d2 : FSDir) (h : walkChildren p d = .ok (rs, d2)) : hasCstempD d2 = false := by
  cases d with
  | nil => rw [walkChildren_nil] at h; simp at h; rw [← h.2, hasCstempD]
  | cons c rest =>
    cases hc : walkChild p c with
    | error e => rw [walkChildren_cons_err1 hc] at h; simp at h
    | ok v =>
      obtain ⟨r, c2⟩ := v
      cases hr : walkChildren p rest with
      | error e => rw [walkChildren_cons_err2 hc hr] at h; simp at h
      | ok w =>
        obtain ⟨rs2, rest2⟩ := w
        rw [walkChildren_cons_ok hc hr] at h
        simp at h
        have hrest := walkChildren_no_cstemp p rest rs2 rest2 hr
        cases c2 with
        | none => simp at h; rw [← h.2]; exact hrest
        | some m =>
          simp at h
          rw [← h.2, hasCstempD, walkChild_no_cstemp p c r m hc, hrest]
          rfl
end

mutual
theorem expectedN_no_cstemp (p : FPath) (n : FSNode) (x : FPath)
    (hx : x ∈ expectedN p n) : (extname x == ".cstemp") = false := by
  cases n with
  | file name binary =>
    simp only [expectedN] at hx
    split_ifs at hx with h1 h2 <;> simp_all
  | unreadableFile name => simp [expectedN] at hx
  | undeletableFile name binary =>
    simp only [expectedN] at hx
    split_ifs at hx with h1 h2 <;> simp_all
  | linkToFile name binary =>
    simp only [expectedN] at hx
    split_ifs at hx with h1 h2 <;> simp_all
  | dir name children =>
    simp only [expectedN, List.mem_append] at hx
    rcases hx with hx | hx
    · exact expectedD_no_cstemp (p ++ [name]) children x hx
    · split_ifs at hx with hb
      · simp only [List.mem_singleton] at hx
        subst hx
        simp only [bundleExtP, Bool.or_eq_true, beq_iff_eq] at hb
        rcases hb with hb | hb <;> simp [hb]
      · simp at hx
  | linkToDir name children =>
    simp only [expectedN, List.mem_append] at hx
    rcases hx with hx | hx
    · exact expectedD_no_cstemp (p ++ [name]) children x hx
    · split_ifs at hx with hb
      · simp only [List.mem_singleton] at hx
        subst hx
        simp only [bundleExtP, Bool.or_eq_true, beq_iff_eq] at hb
        rcases hb with hb | hb <;> simp [hb]
      · simp at hx
  | unreadableDir name => simp [expectedN] at hx
  | brokenLink name => simp [expectedN] at hx
  | other name => simp [expectedN] at hx

theorem expectedD_no_cstemp (p : FPath) (d : FSDir) (x : FPath)
    (hx : x ∈ expectedD p d) : (extname x == ".cstemp") = false := by
  cases d with
  | nil => simp [expectedD] at hx
  | cons c rest =>
    simp only [expectedD, List.mem_append] at hx
    rcases hx with hx | hx
    · exact expectedN_no_cstemp p c x hx
    · exact expectedD_no_cstemp p rest x hx
end

/-- C6: a regular file whose resolved path has the extension `.cstemp` is
deleted (the `rm` is issued with `force: true`, tolerating an already-gone
target) and contributes `null`; after a successful walk no regular file
with the `.cstemp` extension remains anywhere in the tree, and no output
path has the `.cstemp` extension. -/
theorem walk_reclaims_cstemp (p : FPath) (rname : String) (ns : FSDir)
    (name : String) (binary : Bool) (out : List FPath) (post : FSDir)
    (hext : (extname (p ++ [name]) == ".cstemp") = true)
    (hok : walk p (.dir rname ns) = .ok (out, post)) :
    walkChild p (.file name binary) = .ok (.null, none) ∧
    hasCstempD post = false ∧
    ∀ x ∈ out, (extname x == ".cstemp") = false := by
  obtain ⟨rs, hw, hout⟩ := walk_dir_ok hok
  refine ⟨walkChild_file_cstemp binary hext, walkChildren_no_cstemp p ns rs post hw, ?_⟩
  intro x hx
  rw [hout, walkChildren_populate p ns rs post hw] at hx
  exact expectedD_no_cstemp p ns x hx

/-- Witness for C6 on the concrete tree `r/{a.cstemp (binary), b (binary)}`:
the stale artifact is deleted, contributes `null`, is absent from the
output `[r/b]`, and the post-walk tree contains no `.cstemp` file. -/
theorem walk_reclaims_cstemp_witness :
    walkChild ["r"] (.file "a.cstemp" true) = .ok (.null, none) ∧
    hasCstempD (.cons (.file "b" true) .nil) = false ∧
    ∀ x ∈ [["r", "b"]], (extname x == ".cstemp") = false :=
  walk_reclaims_cstemp ["r"] "r"
    (.cons (.file "a.cstemp" true) (.cons (.file "b" true) .nil))
    "a.cstemp" true [["r", "b"]] (.cons (.file "b" true) .nil)
    (by decide) (by rfl)

/-- C10: the stale-artifact rule applies only to regular files: a directory
whose name ends in `.cstemp` is never deleted, is recursed into like any
ordinary non-bundle directory, and contributes only its recursively
collected descendants — its own path is not part of its contribution. -/
theorem walk_cstemp_dir_recursed (p : FPath) (name : String) (cs : FSDir)
    (rs : DeepList FPath) (cs2 : FSDir)
    (hext : extnameOfName name = ".cstemp")
    (h : walkChildren (p ++ [name]) cs = .ok (rs, cs2)) :
    walkChild p (.dir name cs) = .ok (.list rs, some (.dir name cs2)) ∧
    (p ++ [name]) ∉ populateList pathTruthy rs := by
  have hb : bundleExtP (p ++ [name]) = false := by
    simp [bundleExtP, extname_resolve, hext]
  constructor
  · rw [walkChild_dir_ok h, hb]
    rfl
  · rw [walkChildren_populate (p ++ [name]) cs rs cs2 h]
    intro hmem
    obtain ⟨m, hm, hxm⟩ := (mem_expectedD _ _ _).mp hmem
    have hlen := under_length (expectedN_under (p ++ [name]) m (p ++ [name]) hxm)
    simp only [List.length_append, List.length_cons, List.length_nil] at hlen
    omega

/-- Witness for C10 on the concrete tree entry `r/d.cstemp/{b (binary)}`:
the directory `d.cstemp` is kept, recursed, contributes `[r/d.cstemp/b]`,
and its own path is not contributed. -/
theorem walk_cstemp_dir_recursed_witness :
    walkChild ["r"] (.dir "d.cstemp" (.cons (.file "b" true) .nil)) =
      .ok (.list (.cons (.item ["r", "d.cstemp", "b"]) .nil),
           some (.dir "d.cstemp" (.cons (.file "b" true) .nil))) ∧
    ["r", "d.cstemp"] ∉
      populateList pathTruthy (.cons (.item ["r", "d.cstemp", "b"]) .nil) :=
  walk_cstemp_dir_recursed ["r"] "d.cstemp" (.cons (.file "b" true) .nil)
    (.cons (.item ["r", "d.cstemp", "b"]) .nil) (.cons (.file "b" true) .nil)
    (by decide) (by rfl)

theorem distinctNames_cons {n : String} {ns : List String}
    (h : distinctNames (n :: ns) = true) :
    (∀ m ∈ ns, m ≠ n) ∧ distinctNames ns = true := by
  simp only [distinctNames, Bool.and_eq_true, Bool.not_eq_true', List.any_eq_false,
    beq_iff_eq] at h
  exact ⟨h.1, h.2⟩

theorem memD_name_unique {d : FSDir} (hdist : distinctNames (namesOfD d) = true)
    {m1 m2 : FSNode} (h1 : memD m1 d) (h2 : memD m2 d)
    (he : nameOf m1 = nameOf m2) : m1 = m2 := by
  cases d with
  | nil => simp [memD, FSDir.toList] at h1
  | cons c rest =>
    have hd := distinctNames_cons (by simpa [namesOfD, FSDir.toList] using hdist)
    simp only [memD, FSDir.toList, List.mem_cons] at h1 h2
    rcases h1 with rfl | h1 <;> rcases h2 with rfl | h2
    · rfl
    · exact absurd (he.symm) (hd.1 (nameOf m2) (List.mem_map_of_mem nameOf h2))
    · exact absurd he (hd.1 (nameOf m1) (List.mem_map_of_mem nameOf h1))
    · exact memD_name_unique hd.2 h1 h2 he

theorem wfDir_mem {d : FSDir} (hwf : wfDir d = true) {n : FSNode} (h : memD n d) :
    wfNode n = true := by
  cases d with
  | nil => simp [memD, FSDir.toList] at h
  | cons c rest =>
    obtain ⟨hc, hrest, -⟩ := wfDir_cons hwf
    simp only [memD, FSDir.toList, List.mem_cons] at h
    rcases h with rfl | h
    · exact hc
    · exact wfDir_mem hrest h

theorem wfDir_distinct {d : FSDir} (hwf : wfDir d = true) :
    distinctNames (namesOfD d) = true := by
  simp only [wfDir, Bool.and_eq_true] at hwf
  exact hwf.1

theorem expectedD_mem_file (p : FPath) {d : FSDir} {rel : List String} {cs : FSDir}
    (hwf : wfDir d = true) (hda : DirAt d rel cs)
    {fname : String} {binary : Bool}
    (hmem : memD (.file fname binary) cs)
    (hext : (extnameOfName fname == ".cstemp") = false) :
    ((p ++ rel ++ [fname]) ∈ expectedD p d ↔ binary = true) := by
  induction hda generalizing p with
  | refl d =>
    have hextp : (extname (p ++ [fname]) == ".cstemp") = false := by
      rw [extname_resolve]; exact hext
    constructor
    · intro hx
      simp only [List.append_nil] at hx
      obtain ⟨m, hm, hxm⟩ := (mem_expectedD _ _ _).mp hx
      have hun := expectedN_under p m (p ++ [fname]) hxm
      have hname : nameOf m = fname :=
        under_snoc_inj hun (under_refl (p ++ [fname]))
      have : m = .file fname binary :=
        memD_name_unique (wfDir_distinct hwf) hm hmem (by rw [hname]; rfl)
      subst this
      simp only [expectedN, hextp] at hxm
      cases binary with
      | true => rfl
      | false => simp at hxm
    · intro hb
      subst hb
      apply (mem_expectedD _ _ _).mpr
      refine ⟨.file fname true, hmem, ?_⟩
      simp [expectedN, hextp]
  | stepDir hm hda ih =>
    rename_i d dname inner cs2 rel2
    obtain ⟨hinner, hrest⟩ : wfNode (.dir dname inner) = true ∧
        distinctNames (namesOfD d) = true :=
      ⟨wfDir_mem hwf hm, wfDir_distinct hwf⟩
    rw [wfNode_dir] at hinner
    have hx : p ++ (dname :: rel2) ++ [fname] = (p ++ [dname]) ++ rel2 ++ [fname] := by
      simp
    rw [hx]
    constructor
    · intro hmemx
      obtain ⟨m, hm2, hxm⟩ := (mem_expectedD _ _ _).mp hmemx
      have hun := expectedN_under p m _ hxm
      have hun2 : under (p ++ [dname]) ((p ++ [dname]) ++ rel2 ++ [fname]) = true := by
        rw [List.append_assoc]
        exact under_append _ _
      have hname : nameOf m = dname := under_snoc_inj hun hun2
      have : m = .dir dname inner :=
        memD_name_unique hrest hm2 hm (by rw [hname]; rfl)
      subst this
      simp only [expectedN, List.mem_append] at hxm
      rcases hxm with hxm | hxm
      · exact (ih (p ++ [dname]) hinner hmem).mp hxm
      · exfalso
        split_ifs at hxm with hb
        · simp only [List.mem_singleton] at hxm
          have := congrArg List.length hxm
          simp at this
        · simp at hxm
    · intro hb
      apply (mem_expectedD _ _ _).mpr
      refine ⟨.dir dname inner, hm, ?_⟩
      simp only [expectedN, List.mem_append]
      exact Or.inl ((ih (p ++ [dname]) hinner hmem).mpr hb)
  | stepLink hm hda ih =>
    rename_i d dname inner cs2 rel2
    obtain ⟨hinner, hrest⟩ : wfNode (.linkToDir dname inner) = true ∧
        distinctNames (namesOfD d) = true :=
      ⟨wfDir_mem hwf hm, wfDir_distinct hwf⟩
    rw [wfNode_linkToDir] at hinner
    have hx : p ++ (dname :: rel2) ++ [fname] = (p ++ [dname]) ++ rel2 ++ [fname] := by
      simp
    rw [hx]
    constructor
    · intro hmemx
      obtain ⟨m, hm2, hxm⟩ := (mem_expectedD _ _ _).mp hmemx
      have hun := expectedN_under p m _ hxm
      have hun2 : under (p ++ [dname]) ((p ++ [dname]) ++ rel2 ++ [fname]) = true := by
        rw [List.append_assoc]
        exact under_append _ _
      have hname : nameOf m = dname := under_snoc_inj hun hun2
      have : m = .linkToDir dname inner :=
        memD_name_unique hrest hm2 hm (by rw [hname]; rfl)
      subst this
      simp only [expectedN, List.mem_append] at hxm
      rcases hxm with hxm | hxm
      · exact (ih (p ++ [dname]) hinner hmem).mp hxm
      · exfalso
        split_ifs at hxm with hb
        · simp only [List.mem_singleton] at hxm
          have := congrArg List.length hxm
          simp at this
        · simp at hxm
    · intro hb
      apply (mem_expectedD _ _ _).mpr
      refine ⟨.linkToDir dname inner, hm, ?_⟩
      simp only [expectedN, List.mem_append]
      exact Or.inl ((ih (p ++ [dname]) hinner hmem).mpr hb)

/-- C5: for a regular file, reached at relative directory chain `rel` inside
a well-formed tree, whose extension is not `.cstemp`, the file's resolved
path appears in the output of a successful walk if and only if the
content-based binary verdict on the file is positive; non-binary files are
excluded regardless of extension. -/
theorem walk_file_in_output_iff_binary (p : FPath) (rname : String) (ns : FSDir)
    (rel : List String) (cs : FSDir) (fname : String) (binary : Bool)
    (out : List FPath) (post : FSDir)
    (hwf : wfDir ns = true)
    (hda : DirAt ns rel cs)
    (hmem : memD (.file fname binary) cs)
    (hext : (extnameOfName fname == ".cstemp") = false)
    (hok : walk p (.dir rname ns) = .ok (out, post)) :
    ((p ++ rel ++ [fname]) ∈ out ↔ binary = true) := by
  obtain ⟨rs, hw, hout⟩ := walk_dir_ok hok
  rw [hout, walkChildren_populate p ns rs post hw]
  exact expectedD_mem_file p hwf hda hmem hext

/-- Witness for C5 on the concrete tree `r/{sub/{x (binary), t.txt (text)}}`:
the binary file's path `r/sub/x` is in the output. -/
theorem walk_file_in_output_iff_binary_witness :
    (["r", "sub", "x"] ∈ [["r", "sub", "x"]]) ↔ true = true :=
  walk_file_in_output_iff_binary ["r"] "r"
    (.cons (.dir "sub" (.cons (.file "x" true) (.cons (.file "t.txt" false) .nil))) .nil)
    ["sub"] (.cons (.file "x" true) (.cons (.file "t.txt" false) .nil))
    "x" true [["r", "sub", "x"]]
    (.cons (.dir "sub" (.cons (.file "x" true) (.cons (.file "t.txt" false) .nil))) .nil)
    (by decide)
    (DirAt.stepDir (by simp [memD, FSDir.toList]) (DirAt.refl _))
    (by simp [memD, FSDir.toList]) (by decide) (by rfl)

mutual
theorem walkChild_idem (p : FPath) (n : FSNode) (r : DeepItem FPath)
    (n2 : Option FSNode) (h : walkChild p n = .ok (r, n2)) :
    (n2 = none → r = DeepItem.null) ∧
    (∀ m, n2 = some m → ∃ r2, walkChild p m = .ok (r2, some m) ∧
        populate pathTruthy r2 = populate pathTruthy r) := by
  cases n with
  | file name binary =>
    by_cases hext : (extname (p ++ [name]) == ".cstemp") = true
    · rw [walkChild_file_cstemp binary hext] at h
      simp at h
      exact ⟨fun _ => h.1.symm, fun m hm => by
        rw [← h.2] at hm; exact Option.noConfusion hm⟩
    · simp only [Bool.not_eq_true] at hext
      rw [walkChild_file binary hext] at h
      simp at h
      constructor
      · intro h0; rw [← h.2] at h0; exact Option.noConfusion h0
      · intro m hm
        rw [← h.2] at hm
        injection hm with hm2
        subst hm2
        rw [← h.1]
        exact ⟨_, walkChild_file binary hext, rfl⟩
  | unreadableFile name =>
    by_cases hext : (extname (p ++ [name]) == ".cstemp") = true
    · rw [walkChild_unreadable_cstemp hext] at h
      simp at h
      exact ⟨fun _ => h.1.symm, fun m hm => by
        rw [← h.2] at hm; exact Option.noConfusion hm⟩
    · simp only [Bool.not_eq_true] at hext
      rw [walkChild_unreadable hext] at h
      simp at h
  | undeletableFile name binary =>
    by_cases hext : (extname (p ++ [name]) == ".cstemp") = true
    · rw [walkChild_undeletable_cstemp binary hext] at h
      simp at h
    · simp only [Bool.not_eq_true] at hext
      rw [walkChild_undeletable binary hext] at h
      simp at h
      constructor
      · intro h0; rw [← h.2] at h0; exact Option.noConfusion h0
      · intro m hm
        rw [← h.2] at hm
        injection hm with hm2
        subst hm2
        rw [← h.1]
        exact ⟨_, walkChild_undeletable binary hext, rfl⟩
  | linkToFile name binary =>
    by_cases hext : (extname (p ++ [name]) == ".cstemp") = true
    · rw [walkChild_linkToFile_cstemp binary hext] at h
      simp at h
      exact ⟨fun _ => h.1.symm, fun m hm => by
        rw [← h.2] at hm; exact Option.noConfusion hm⟩
    · simp only [Bool.not_eq_true] at hext
      rw [walkChild_linkToFile binary hext] at h
      simp at h
      constructor
      · intro h0; rw [← h.2] at h0; exact Option.noConfusion h0
      · intro m hm
        rw [← h.2] at hm
        injection hm with hm2
        subst hm2
        rw [← h.1]
        exact ⟨_, walkChild_linkToFile binary hext, rfl⟩
  | dir name children =>
    cases hw : walkChildren (p ++ [name]) children with
    | error e => rw [walkChild_dir_err hw] at h; simp at h
    | ok v =>
      obtain ⟨rs, cs2⟩ := v
      rw [walkChild_dir_ok hw] at h
      simp at h
      obtain ⟨rs2, hw2, heq⟩ := walkChildren_idem (p ++ [name]) children rs cs2 hw
      constructor
      · intro h0; rw [← h.2] at h0; exact Option.noConfusion h0
      · intro m hm
        rw [← h.2] at hm
        injection hm with hm2
        subst hm2
        refine ⟨_, walkChild_dir_ok hw2, ?_⟩
        rw [← h.1]
        by_cases hb : bundleExtP (p ++ [name]) = true <;>
          simp [hb, populate, populateList_push, heq]
  | linkToDir name children =>
    cases hw : walkChildren (p ++ [name]) children with
    | error e => rw [walkChild_linkToDir_err hw] at h; simp at h
    | ok v =>
      obtain ⟨rs, cs2⟩ := v
      rw [walkChild_linkToDir_ok hw] at h
      simp at h
      obtain ⟨rs2, hw2, heq⟩ := walkChildren_idem (p ++ [name]) children rs cs2 hw
      constructor
      · intro h0; rw [← h.2] at h0; exact Option.noConfusion h0
      · intro m hm
        rw [← h.2] at hm
        injection hm with hm2
        subst hm2
        refine ⟨_, walkChild_linkToDir_ok hw2, ?_⟩
        rw [← h.1]
        by_cases hb : bundleExtP (p ++ [name]) = true <;>
          simp [hb, populate, populateList_push, heq]
  | unreadableDir name => rw [walkChild_unreadableDir] at h; simp at h
  | brokenLink name => rw [walkChild_brokenLink] at h; simp at h
  | other name =>
    rw [walkChild_other] at h
    simp at h
    constructor
    · intro h0; rw [← h.2] at h0; exact Option.noConfusion h0
    · intro m hm
      rw [← h.2] at hm
      injection hm with hm2
      subst hm2
      rw [← h.1]
      exact ⟨.null, walkChild_other, rfl⟩

theorem walkChildren_idem (p : FPath) (d : FSDir) (rs : DeepList FPath)
    (d2 : FSDir) (h : walkChildren p d = .ok (rs, d2)) :
    ∃ rs2, walkChildren p d2 = .ok (rs2, d2) ∧
      populateList pathTruthy rs2 = populateList pathTruthy rs := by
  cases d with
  | nil =>
    rw [walkChildren_nil] at h
    simp at h
    rw [← h.1, ← h.2]
    exact ⟨.nil, walkChildren_nil, rfl⟩
  | cons c rest =>
    cases hc : walkChild p c with
    | error e => rw [walkChildren_cons_err1 hc] at h; simp at h
    | ok v =>
      obtain ⟨rc, c2⟩ := v
      cases hr : walkChildren p rest with
      | error e => rw [walkChildren_cons_err2 hc hr] at h; simp at h
      | ok w =>
        obtain ⟨rrest, rest2⟩ := w
        rw [walkChildren_cons_ok hc hr] at h
        simp at h
        obtain ⟨rs2, hw2, heq⟩ := walkChildren_idem p rest rrest rest2 hr
        have hci := walkChild_idem p c rc c2 hc
        cases c2 with
        | none =>
          have hrc := hci.1 rfl
          simp only at h
          rw [← h.1, ← h.2]
          refine ⟨rs2, hw2, ?_⟩
          rw [populateList_cons, hrc, heq, populate]
          simp
        | some m =>
          obtain ⟨rc2, hcm, heqc⟩ := hci.2 m rfl
          simp only at h
          rw [← h.1, ← h.2]
          refine ⟨.cons rc2 rs2, ?_, ?_⟩
          · exact walkChildren_cons_ok hcm hw2
          · rw [populateList_cons, populateList_cons, heq, heqc]
end

/-- C8: running the walk a second time on the state left by a successful
first run — with no external modification in between — succeeds, produces
the same ordered path sequence, and leaves the state unchanged; the only
state difference after the first run is that no `.cstemp` file remains. -/
theorem walk_idempotent (p : FPath) (rname : String) (ns : FSDir)
    (out : List FPath) (post : FSDir)
    (hok : walk p (.dir rname ns) = .ok (out, post)) :
    walk p (.dir rname post) = .ok (out, post) ∧ hasCstempD post = false := by
  obtain ⟨rs, hw, hout⟩ := walk_dir_ok hok
  obtain ⟨rs2, hw2, heq⟩ := walkChildren_idem p ns rs post hw
  refine ⟨?_, walkChildren_no_cstemp p ns rs post hw⟩
  rw [walk_dir_of rname hw2, hout, heq]

/-- Witness for C8 on the concrete tree `r/{a.cstemp (binary), b (binary)}`:
the first walk deletes the stale artifact and outputs `[r/b]`; the second
walk on the resulting state gives the same output and state. -/
theorem walk_idempotent_witness :
    walk ["r"] (.dir "r" (.cons (.file "b" true) .nil)) =
      .ok ([["r", "b"]], .cons (.file "b" true) .nil) ∧
    hasCstempD (.cons (.file "b" true) .nil) = false :=
  walk_idempotent ["r"] "r"
    (.cons (.file "a.cstemp" true) (.cons (.file "b" true) .nil))
    [["r", "b"]] (.cons (.file "b" true) .nil) (by rfl)

/-- The entry at position `i` of a directory listing. -/
def getN : FSDir → Nat → Option FSNode
  | .nil, _ => none
  | .cons c _, 0 => some c
  | .cons _ rest, i + 1 => getN rest i

/-- One child task's result, as recorded by `Promise.all`: the child's
contribution and its state after the call. -/
abbrev SlotR := DeepItem FPath × Option FSNode

/-- Run the per-child tasks of one directory level in the completion order
`π` (a list of indices into the listing).  The first task to fail rejects
the whole `Promise.all`; otherwise every completed task's result is
recorded under its original index.  An index with no entry is skipped (a
valid schedule never contains one). -/
def runSched (p : FPath) (ns : FSDir) : List Nat → Except Err (List (Nat × SlotR))
  | [] => .ok []
  | i :: rest =>
    match getN ns i with
    | none => runSched p ns rest
    | some c => do
        let r ← walkChild p c
        let table ← runSched p ns rest
        .ok ((i, r) :: table)

/-- Collect the completed results back into listing order, slot `k` first:
exactly the array `Promise.all` resolves with. -/
def assembleSched (table : List (Nat × SlotR)) : FSDir → Nat → List SlotR
  | .nil, _ => []
  | .cons _ rest, k =>
      (((table.find? (fun e => e.1 == k)).map (fun e => e.2)).getD (.null, none)) ::
        assembleSched table rest (k + 1)

/-- The contributions of the assembled slots, in listing order. -/
def listOfSlots : List SlotR → DeepList FPath
  | [] => .nil
  | s :: rest => .cons s.1 (listOfSlots rest)

/-- The surviving entries of the assembled slots, in listing order. -/
def dirOfSlots : List SlotR → FSDir
  | [] => .nil
  | s :: rest =>
    match s.2 with
    | some n => .cons n (dirOfSlots rest)
    | none => dirOfSlots rest

/-- The per-directory fan-out of `_walkAsync` under an explicit completion
schedule `π`: run the child tasks in the order `π`, then assemble the
results in listing order. -/
def walkChildrenSched (p : FPath) (ns : FSDir) (π : List Nat) :
    Except Err (DeepList FPath × FSDir) := do
  let table ← runSched p ns π
  let slots := assembleSched table ns 0
  .ok (listOfSlots slots, dirOfSlots slots)

theorem getN_lt (ns : FSDir) (j : Nat) (h : j < ns.lengthD) :
    ∃ c, getN ns j = some c := by
  cases ns with
  | nil => simp [FSDir.lengthD] at h
  | cons c rest =>
    cases j with
    | zero => exact ⟨c, rfl⟩
    | succ j =>
      simp only [FSDir.lengthD, Nat.succ_lt_succ_iff] at h
      obtain ⟨c2, hc2⟩ := getN_lt rest j h
      exact ⟨c2, by simp only [getN]; exact hc2⟩

theorem getN_mem (ns : FSDir) (j : Nat) {c : FSNode} (h : getN ns j = some c) :
    c ∈ ns.toList := by
  cases ns with
  | nil => simp [getN] at h
  | cons c0 rest =>
    cases j with
    | zero =>
      simp only [getN, Option.some.injEq] at h
      simp [FSDir.toList, h]
    | succ j =>
      simp only [getN] at h
      simp [FSDir.toList, getN_mem rest j h]

theorem walkChildren_ok_children {p : FPath} {d : FSDir} {rs : DeepList FPath}
    {d2 : FSDir} (h : walkChildren p d = .ok (rs, d2)) :
    ∀ c ∈ d.toList, ∃ rc, walkChild p c = .ok rc := by
  cases d with
  | nil => simp [FSDir.toList]
  | cons c rest =>
    cases hc : walkChild p c with
    | error e => rw [walkChildren_cons_err1 hc] at h; simp at h
    | ok v =>
      cases hr : walkChildren p rest with
      | error e => rw [walkChildren_cons_err2 hc hr] at h; simp at h
      | ok w =>
        intro c0 hc0
        simp only [FSDir.toList, List.mem_cons] at hc0
        rcases hc0 with rfl | hc0
        · exact ⟨v, hc⟩
        · exact walkChildren_ok_children hr c0 hc0

theorem runSched_mem {p : FPath} {ns : FSDir} {π : List Nat}
    {table : List (Nat × SlotR)} (h : runSched p ns π = .ok table) :
    ∀ i r, (i, r) ∈ table → ∃ c, getN ns i = some c ∧ walkChild p c = .ok r := by
  cases π with
  | nil =>
    simp only [runSched, Except.ok.injEq] at h
    simp [← h]
  | cons i rest =>
    cases hg : getN ns i with
    | none =>
      simp only [runSched, hg] at h
      exact runSched_mem h
    | some c =>
      simp only [runSched, hg] at h
      cases hc : walkChild p c with
      | error e => rw [hc] at h; simp [bind, Except.bind] at h
      | ok r0 =>
        rw [hc] at h
        cases hrest : runSched p ns rest with
        | error e => rw [hrest] at h; simp [bind, Except.bind] at h
        | ok tb =>
          rw [hrest] at h
          simp only [bind, Except.bind, Except.ok.injEq] at h
          intro i1 r1 hm
          rw [← h] at hm
          simp only [List.mem_cons, Prod.mk.injEq] at hm
          rcases hm with ⟨rfl, rfl⟩ | hm
          · exact ⟨c, hg, hc⟩
          · exact runSched_mem hrest i1 r1 hm

theorem runSched_keys {p : FPath} {ns : FSDir} {π : List Nat}
    {table : List (Nat × SlotR)} (h : runSched p ns π = .ok table) :
    table.map Prod.fst = π.filter (fun i => (getN ns i).isSome) := by
  cases π with
  | nil =>
    simp only [runSched, Except.ok.injEq] at h
    simp [← h]
  | cons i rest =>
    cases hg : getN ns i with
    | none =>
      simp only [runSched, hg] at h
      rw [runSched_keys h]
      simp [List.filter, hg]
    | some c =>
      simp only [runSched, hg] at h
      cases hc : walkChild p c with
      | error e => rw [hc] at h; simp [bind, Except.bind] at h
      | ok r0 =>
        rw [hc] at h
        cases hrest : runSched p ns rest with
        | error e => rw [hrest] at h; simp [bind, Except.bind] at h
        | ok tb =>
          rw [hrest] at h
          simp only [bind, Except.bind, Except.ok.injEq] at h
          rw [← h]
          simp only [List.map_cons]
          rw [runSched_keys hrest]
          simp [List.filter, hg]

theorem runSched_task_ok {p : FPath} {ns : FSDir} {π : List Nat}
    {table : List (Nat × SlotR)} (h : runSched p ns π = .ok table) :
    ∀ i ∈ π, ∀ c, getN ns i = some c → ∃ r, walkChild p c = .ok r ∧ (i, r) ∈ table := by
  cases π with
  | nil => simp
  | cons i0 rest =>
    cases hg : getN ns i0 with
    | none =>
      simp only [runSched, hg] at h
      intro i hi c hc
      simp only [List.mem_cons] at hi
      rcases hi with rfl | hi
      · rw [hg] at hc; exact Option.noConfusion hc
      · exact runSched_task_ok h i hi c hc
    | some c0 =>
      simp only [runSched, hg] at h
      cases hc0 : walkChild p c0 with
      | error e => rw [hc0] at h; simp [bind, Except.bind] at h
      | ok r0 =>
        rw [hc0] at h
        cases hrest : runSched p ns rest with
        | error e => rw [hrest] at h; simp [bind, Except.bind] at h
        | ok tb =>
          rw [hrest] at h
          simp only [bind, Except.bind, Except.ok.injEq] at h
          intro i hi c hc
          simp only [List.mem_cons] at hi
          rcases hi with rfl | hi
          · rw [hg] at hc
            injection hc with hc
            subst hc
            exact ⟨r0, hc0, by rw [← h]; simp⟩
          · obtain ⟨r, hr, hm⟩ := runSched_task_ok hrest i hi c hc
            exact ⟨r, hr, by rw [← h]; simp [hm]⟩

theorem runSched_ok_of {p : FPath} {ns : FSDir} (π : List Nat)
    (h : ∀ i ∈ π, ∀ c, getN ns i = some c → ∃ r, walkChild p c = .ok r) :
    ∃ table, runSched p ns π = .ok table := by
  cases π with
  | nil => exact ⟨[], rfl⟩
  | cons i rest =>
    obtain ⟨tb, htb⟩ := runSched_ok_of rest (fun j hj => h j (by simp [hj]))
    cases hg : getN ns i with
    | none => exact ⟨tb, by simp only [runSched, hg]; exact htb⟩
    | some c =>
      obtain ⟨r, hr⟩ := h i (by simp) c hg
      exact ⟨(i, r) :: tb, by
        simp only [runSched, hg, hr, htb, bind, Except.bind]⟩

theorem find?_of_nodup_mem {table : List (Nat × SlotR)}
    (hnd : (table.map Prod.fst).Nodup) {j : Nat} {r : SlotR} (hm : (j, r) ∈ table) :
    table.find? (fun e => e.1 == j) = some (j, r) := by
  induction table with
  | nil => simp at hm
  | cons e tb ih =>
    simp only [List.map_cons, List.nodup_cons] at hnd
    simp only [List.mem_cons] at hm
    rcases hm with rfl | hm
    · exact List.find?_cons_of_pos _ (by simp)
    · have hne : ¬(e.1 == j) = true := by
        simp only [beq_iff_eq]
        intro he
        exact hnd.1 (by rw [he]; exact List.mem_map_of_mem Prod.fst hm)
      have hstep : List.find? (fun e2 => e2.1 == j) (e :: tb) =
          List.find? (fun e2 => e2.1 == j) tb :=
        List.find?_cons_of_neg tb hne
      rw [hstep]
      exact ih hnd.2 hm

theorem walkChildren_eq_assemble (p : FPath) (d : FSDir) (k : Nat)
    (table : List (Nat × SlotR))
    (hT : ∀ j, j < d.lengthD → ∃ c r, getN d j = some c ∧ walkChild p c = .ok r ∧
        table.find? (fun e => e.1 == (k + j)) = some (k + j, r)) :
    walkChildren p d = .ok (listOfSlots (assembleSched table d k),
      dirOfSlots (assembleSched table d k)) := by
  cases d with
  | nil => simp [assembleSched, listOfSlots, dirOfSlots, walkChildren_nil]
  | cons c rest =>
    obtain ⟨c0, r0, hg0, hw0, hf0⟩ := hT 0 (by simp [FSDir.lengthD])
    simp only [getN, Option.some.injEq] at hg0
    subst hg0
    rw [Nat.add_zero] at hf0
    obtain ⟨r0a, r0b⟩ := r0
    have hrest := walkChildren_eq_assemble p rest (k + 1) table (fun j hj => by
      obtain ⟨c1, r1, h1, h2, h3⟩ := hT (j + 1) (by
        simp only [FSDir.lengthD]
        omega)
      refine ⟨c1, r1, by simpa [getN] using h1, h2, ?_⟩
      have hk : k + (j + 1) = k + 1 + j := by omega
      rw [← hk]
      exact h3)
    have hhead : ((table.find? (fun e => e.1 == k)).map (fun e => e.2)).getD
        (.null, none) = (r0a, r0b) := by
      rw [hf0]
      rfl
    cases r0b with
    | some n =>
      simp only [assembleSched, hhead, listOfSlots, dirOfSlots]
      have hres := walkChildren_cons_ok hw0 hrest
      simpa using hres
    | none =>
      simp only [assembleSched, hhead, listOfSlots, dirOfSlots]
      have hres := walkChildren_cons_ok hw0 hrest
      simpa using hres

theorem sched_table_ok {p : FPath} {ns : FSDir} {π : List Nat}
    {table : List (Nat × SlotR)} (hπ : π.Perm (List.range ns.lengthD))
    (ht : runSched p ns π = .ok table) :
    ∀ j, j < ns.lengthD → ∃ c r, getN ns j = some c ∧ walkChild p c = .ok r ∧
      table.find? (fun e => e.1 == j) = some (j, r) := by
  intro j hj
  obtain ⟨c, hc⟩ := getN_lt ns j hj
  have hjπ : j ∈ π := hπ.mem_iff.mpr (List.mem_range.mpr hj)
  obtain ⟨r, hr, hm⟩ := runSched_task_ok ht j hjπ c hc
  refine ⟨c, r, hc, hr, ?_⟩
  have hkeys := runSched_keys ht
  have hfilter : π.filter (fun i => (getN ns i).isSome) = π := by
    apply List.filter_eq_self.mpr
    intro i hi
    have hilt : i < ns.lengthD := List.mem_range.mp (hπ.mem_iff.mp hi)
    obtain ⟨ci, hci⟩ := getN_lt ns i hilt
    simp [hci]
  have hnd : (table.map Prod.fst).Nodup := by
    rw [hkeys, hfilter]
    exact hπ.symm.nodup (List.nodup_range _)
  exact find?_of_nodup_mem hnd hm

/-- C9: the per-child contributions of a directory level appear in the order
the children were listed, independently of the completion order of the
concurrent per-child tasks: for every schedule `π` (a permutation of the
child indices, giving the order in which the concurrently-processed
children complete), the scheduled fan-out produces a value exactly when the
listing-order fan-out does, and the values coincide — hence, on a fixed
filesystem, any two schedules yield identical results. -/
theorem walkChildren_sched_agrees (p : FPath) (ns : FSDir) (π : List Nat)
    (hπ : π.Perm (List.range ns.lengthD)) (v : DeepList FPath × FSDir) :
    walkChildrenSched p ns π = .ok v ↔ walkChildren p ns = .ok v := by
  constructor
  · intro h
    simp only [walkChildrenSched, bind, Except.bind] at h
    cases ht : runSched p ns π with
    | error e => rw [ht] at h; exact Except.noConfusion h
    | ok table =>
      rw [ht] at h
      simp only [Except.ok.injEq] at h
      rw [← h]
      exact walkChildren_eq_assemble p ns 0 table (fun j hj => by
        obtain ⟨c, r, hc, hr, hf⟩ := sched_table_ok hπ ht j hj
        exact ⟨c, r, hc, hr, by simpa using hf⟩)
  · intro h
    obtain ⟨rs, d2⟩ := v
    obtain ⟨table, ht⟩ := runSched_ok_of π (fun i hi c hc =>
      walkChildren_ok_children h c (getN_mem ns i hc))
    have hassemble := walkChildren_eq_assemble p ns 0 table (fun j hj => by
      obtain ⟨c, r, hc, hr, hf⟩ := sched_table_ok hπ ht j hj
      exact ⟨c, r, hc, hr, by simpa using hf⟩)
    have hv := hassemble.symm.trans h
    simp only [Except.ok.injEq, Prod.mk.injEq] at hv
    simp only [walkChildrenSched, bind, Except.bind, ht, Except.ok.injEq, Prod.mk.injEq]
    exact hv

/-- Witness for C9 on the concrete two-child tree `r/{A.app/{b}, c}` with the
reversed completion schedule `[1, 0]` (the second child finishes first):
the result equals the listing-order result. -/
theorem walkChildren_sched_agrees_witness :
    walkChildrenSched ["r"]
        (.cons (.dir "A.app" (.cons (.file "b" true) .nil)) (.cons (.file "c" true) .nil))
        [1, 0] =
      .ok (.cons (.list (.cons (.item ["r", "A.app", "b"])
            (.cons (.item ["r", "A.app"]) .nil)))
          (.cons (.item ["r", "c"]) .nil),
        .cons (.dir "A.app" (.cons (.file "b" true) .nil)) (.cons (.file "c" true) .nil)) ↔
    walkChildren ["r"]
        (.cons (.dir "A.app" (.cons (.file "b" true) .nil)) (.cons (.file "c" true) .nil)) =
      .ok (.cons (.list (.cons (.item ["r", "A.app", "b"])
            (.cons (.item ["r", "A.app"]) .nil)))
          (.cons (.item ["r", "c"]) .nil),
        .cons (.dir "A.app" (.cons (.file "b" true) .nil)) (.cons (.file "c" true) .nil)) :=
  walkChildren_sched_agrees ["r"]
    (.cons (.dir "A.app" (.cons (.file "b" true) .nil)) (.cons (.file "c" true) .nil))
    [1, 0] (by decide) _
